import Mathlib

/-!
Shallow embedding of `smallstring::Buffer` from
`src/include/smallstring/smallstring.hpp` (the current header; the historical
revision in `src/unnamed/part_001` differs only where noted).

The buffer is a pair of a logical length `m_length` and a backing
`std::vector<char>` `m_buffer`; we model the vector as a `List Nat` of byte
values, so `capacity() = m_buffer.size()` becomes the length of the list.
`std::vector<char>::resize` value-initializes fresh elements to 0, and
`std::copy` into a region that `ensure_fit` made large enough is modelled by
`listWrite`.  Machine-integer overflow never occurs in the operations we
model: all sizes are C++ `std::size_t` values that the program only ever
adds within allocated-memory bounds, so plain `Nat` is faithful.
-/

namespace SmallString

/-- A byte of the backing storage (`char`), as a natural number value. -/
abbrev Byte := Nat

/-- `std::vector<char>::resize(n)`: keep the first `min n size` elements and
value-initialize any new elements to `0`. -/
def vecResize (l : List Byte) (n : Nat) : List Byte :=
  if n ≤ l.length then l.take n else l ++ List.replicate (n - l.length) 0

/-- In-bounds `std::copy(src, src + src.size, dst.data() + pos)`: overwrite
`dst[pos, pos + src.length)` with `src`.  Every call site first guarantees
`pos + src.length ≤ dst.length` via `ensure_fit`. -/
def listWrite (dst : List Byte) (pos : Nat) (src : List Byte) : List Byte :=
  dst.take pos ++ src ++ dst.drop (pos + src.length)

/-- Embedding of `smallstring::Buffer`:
`m_length` bytes of `m_buffer` are valid content. -/
structure Buffer where
  m_length : Nat
  m_buffer : List Byte
deriving DecidableEq

namespace Buffer

/-- `capacity()`: `m_buffer.size()`. -/
def capacity (b : Buffer) : Nat := b.m_buffer.length

/-- `length()`: bytes already written. -/
def length (b : Buffer) : Nat := b.m_length

/-- `remaining()`: `capacity() - length()`. -/
def remaining (b : Buffer) : Nat := b.capacity - b.length

/-- `Buffer(capacity)`: the constructor builds `m_buffer(capacity)`, a
value-initialized (all zero) vector, and leaves `m_length = 0`.  The default
argument in the source is 256. -/
def mkBuffer (cap : Nat) : Buffer := ⟨0, List.replicate cap 0⟩

/-- `drop_memory()`: `m_buffer.clear(); m_buffer.shrink_to_fit();` leaves an
empty vector, and `m_length = 0`. -/
def drop_memory (_b : Buffer) : Buffer := ⟨0, []⟩

/-- `ensure_fit(to_add)`: grow the vector to `m_length + to_add` when that
exceeds the capacity; otherwise do nothing. -/
def ensure_fit (b : Buffer) (to_add : Nat) : Buffer :=
  if b.m_length + to_add > b.capacity then
    ⟨b.m_length, vecResize b.m_buffer (b.m_length + to_add)⟩
  else b

/-- `ensure_pad(pad)`: an alias for `ensure_fit`. -/
def ensure_pad (b : Buffer) (pad : Nat) : Buffer := b.ensure_fit pad

/-- `clear()`: logical clear, `m_length = 0`, storage untouched. -/
def clear (b : Buffer) : Buffer := ⟨0, b.m_buffer⟩

/-- `push(const char* ptr, std::size_t sz)`: `ensure_fit(sz)`, copy the `sz`
source bytes to `tail()`, then `m_length += sz`.  The `std::string_view` and
`std::string` overloads forward here with `(data(), length())`, so one
definition covers all three. -/
def push (b : Buffer) (src : List Byte) : Buffer :=
  let b1 := b.ensure_fit src.length
  ⟨b1.m_length + src.length, listWrite b1.m_buffer b1.m_length src⟩

/-- `template <std::size_t N> push(const char (&ptr)[N])`: forwards to
`push(ptr, N - 1)`, so exactly the first `N - 1` bytes of the array are
appended, with no scanning for a NUL terminator. -/
def pushLiteral (b : Buffer) (arr : List Byte) : Buffer :=
  b.push (arr.take (arr.length - 1))

/-- `pop(n)`: when `n >= m_length` just set `m_length = 0`; otherwise
`std::copy(head() + n, tail(), head())` and `m_length -= n`. -/
def pop (b : Buffer) (n : Nat) : Buffer :=
  if n ≥ b.m_length then ⟨0, b.m_buffer⟩
  else ⟨b.m_length - n, listWrite b.m_buffer 0 ((b.m_buffer.take b.m_length).drop n)⟩

/-- `view()`: `std::string_view(head(), length())`, the first `m_length`
bytes of the storage. -/
def view (b : Buffer) : List Byte := b.m_buffer.take b.m_length

/-- The class invariant stated by the spec: `0 ≤ length ≤ capacity`
(the lower bound is inherent in `Nat`). -/
def lengthInv (b : Buffer) : Prop := b.m_length ≤ b.capacity

instance (b : Buffer) : Decidable b.lengthInv := by
  unfold lengthInv; infer_instance

/-- Destination of `Buffer(Buffer&& other) = default` (and of the defaulted
move assignment): `m_length` is copied from `other`, the vector is stolen. -/
def moveDest (a : Buffer) : Buffer := ⟨a.m_length, a.m_buffer⟩

/-- State of `other` after the defaulted move: moving a `std::size_t` member
just copies it, so `other.m_length` keeps its old value, while the moved-from
`std::vector` is left empty.  (The historical revision in
`src/unnamed/part_001` instead wrote `other.m_length = 0;` by hand.) -/
def moveSrc (a : Buffer) : Buffer := ⟨a.m_length, []⟩

end Buffer

/-! ### Integer formatting (`count_digits` and `push(T number)`) -/

/-- The digit-counting loop of `count_digits`:
`while (number) { number /= 10; ++digits; }` with C++ signed division
(truncation toward zero, `Int.tdiv`). -/
def digitLoop (number : Int) : Nat :=
  if number = 0 then 0 else digitLoop (number.tdiv 10) + 1
termination_by number.natAbs
decreasing_by
  rename_i h
  rw [Int.natAbs_tdiv]
  exact Nat.div_lt_self (Int.natAbs_pos.mpr h) (by norm_num)

/-- `Buffer::count_digits(T number)`: one slot for the sign when negative,
plus one per divide-by-ten step.  For an unsigned `T` the value is never
negative, so the same formula covers both instantiations.  NOTE: the loop
guard is `while (number)`, so `count_digits(0) = 0` — there is no
special case for zero. -/
def count_digits (number : Int) : Nat :=
  (if number < 0 then 1 else 0) + digitLoop number

/-- The digit-writing loop of `push(T number)` after `std::abs`:
`while (number) { *start-- = number % 10 + 48; number /= 10; }`.
Returns the updated storage together with the final position of `start`
(one below the last digit written; `Nat` subtraction clamps at 0 exactly
when the loop filled the buffer down to index 0, in which case the C++
pointer is one-before-begin and is never dereferenced). -/
def writeDigits (buf : List Byte) (pos : Nat) (number : Nat) : List Byte × Nat :=
  if number = 0 then (buf, pos)
  else writeDigits (buf.set pos (number % 10 + 48)) (pos - 1) (number / 10)
termination_by number
decreasing_by
  rename_i h
  exact Nat.div_lt_self (Nat.pos_of_ne_zero h) (by norm_num)

/-- `push(T number)`: reserve `count_digits(number)` bytes, advance
`m_length`, write the digits of `std::abs(number)` right to left from the
new `tail() - 1`, then place a sign at the final cursor position when the
value was negative.  `std::abs` is modelled by `Int.natAbs`; this is exact
for every representable input except the minimum signed value, where the
C++ call itself overflows (undefined behavior). -/
def Buffer.pushInt (b : Buffer) (number : Int) : Buffer :=
  let ndigits := count_digits number
  let b1 := b.ensure_fit ndigits
  let len1 := b1.m_length + ndigits
  let negative := number < 0
  let wd := writeDigits b1.m_buffer (len1 - 1) number.natAbs
  ⟨len1, if negative then wd.1.set wd.2 45 else wd.1⟩

/-- `push` of every slice in a list, left to right. -/
def Buffer.pushAll (b : Buffer) (ss : List (List Byte)) : Buffer :=
  ss.foldl Buffer.push b

/-! ### Spec-side definition: canonical decimal representation -/

/-- The base-10 digits of a natural number, most significant first
(`[]` for 0). -/
def natDigits (n : Nat) : List Nat :=
  if n = 0 then [] else natDigits (n / 10) ++ [n % 10]
termination_by n
decreasing_by
  rename_i h
  exact Nat.div_lt_self (Nat.pos_of_ne_zero h) (by norm_num)

/-- Spec-side definition: the canonical base-10 ASCII decimal representation
of an integer — a single leading `-` (byte 45) iff negative, no leading
zeros, and the single byte for the digit `0` (byte 48) when the value is
zero. -/
def canonicalDecimal (v : Int) : List Byte :=
  (if v < 0 then [45] else []) ++
    (if v = 0 then [48] else (natDigits v.natAbs).map (· + 48))

/-- The ASCII bytes of the digits of `n`, most significant first. -/
def asciiDigits (n : Nat) : List Byte := (natDigits n).map (· + 48)

/-! ### Searching (`find`) -/

/-- `std::string_view::npos` on a 64-bit platform: `size_t(-1)`. -/
def npos : Nat := 2 ^ 64 - 1

/-- `needle` occurs in `hay` at offset `x`. -/
def occursAt (hay needle : List Byte) (x : Nat) : Prop :=
  x + needle.length ≤ hay.length ∧ (hay.drop x).take needle.length = needle

instance (hay needle : List Byte) (x : Nat) : Decidable (occursAt hay needle x) := by
  unfold occursAt; infer_instance

/-- One candidate-offset test of the forward substring search. -/
def matchAt (hay needle : List Byte) (x : Nat) : Bool :=
  decide (occursAt hay needle x)

/-- Forward scan of candidate offsets `x, x+1, …` (bounded by the fuel,
which callers set to the number of remaining candidates). -/
def findLoop (hay needle : List Byte) (x : Nat) : Nat → Nat
  | 0 => npos
  | fuel + 1 => if matchAt hay needle x then x else findLoop hay needle (x + 1) fuel

/-- `Buffer::find(str, pos)`: forwards to `std::string_view::find` on
`view()`, which returns the smallest offset `x ≥ pos` at which `str` occurs
in the view, and `npos` when there is none ([string.view.find] in the C++
standard; all three `find` overloads — `const char*`, `std::string`,
`std::string_view` — reduce to this on the byte sequence of the needle). -/
def Buffer.find (b : Buffer) (needle : List Byte) (pos : Nat) : Nat :=
  findLoop b.view needle pos (b.view.length + 1 - pos)

end SmallString

namespace SmallString

theorem vecResize_length_of_le (l : List Byte) (n : Nat) (h : l.length ≤ n) :
    (vecResize l n).length = n := by
  unfold vecResize
  split <;> simp <;> omega

theorem vecResize_of_lt (l : List Byte) (n : Nat) (h : l.length < n) :
    vecResize l n = l ++ List.replicate (n - l.length) 0 := by
  unfold vecResize
  rw [if_neg (by omega)]

theorem ensure_fit_m_length (b : Buffer) (n : Nat) :
    (b.ensure_fit n).m_length = b.m_length := by
  unfold Buffer.ensure_fit
  split <;> rfl

theorem ensure_fit_capacity_ge (b : Buffer) (n : Nat) :
    b.m_length + n ≤ (b.ensure_fit n).capacity := by
  unfold Buffer.ensure_fit
  split
  · rename_i h
    simp only [Buffer.capacity] at *
    rw [vecResize_length_of_le _ _ (by omega)]
  · rename_i h
    simp only [Buffer.capacity] at *
    omega

theorem ensure_fit_capacity_mono (b : Buffer) (n : Nat) :
    b.capacity ≤ (b.ensure_fit n).capacity := by
  unfold Buffer.ensure_fit
  split
  · rename_i h
    simp only [Buffer.capacity] at *
    rw [vecResize_length_of_le _ _ (by omega)]
    omega
  · exact Nat.le_refl _

theorem ensure_fit_capacity_of_gt (b : Buffer) (n : Nat)
    (h : b.m_length + n > b.capacity) :
    (b.ensure_fit n).capacity = b.m_length + n := by
  unfold Buffer.ensure_fit
  rw [if_pos h]
  simp only [Buffer.capacity] at *
  rw [vecResize_length_of_le _ _ (by omega)]

theorem ensure_fit_eq_of_le (b : Buffer) (n : Nat)
    (h : b.m_length + n ≤ b.capacity) :
    b.ensure_fit n = b := by
  unfold Buffer.ensure_fit
  rw [if_neg (by omega)]

theorem ensure_fit_buffer_take (b : Buffer) (n : Nat) (h : b.lengthInv) :
    (b.ensure_fit n).m_buffer.take b.m_length = b.m_buffer.take b.m_length := by
  unfold Buffer.ensure_fit
  split
  · rename_i hgt
    simp only [Buffer.capacity, Buffer.lengthInv] at *
    rw [vecResize_of_lt _ _ (by omega)]
    rw [List.take_append_eq_append_take]
    rw [Nat.sub_eq_zero_of_le h]
    simp
  · rfl

theorem ensure_fit_view (b : Buffer) (n : Nat) (h : b.lengthInv) :
    (b.ensure_fit n).view = b.view := by
  unfold Buffer.view
  rw [ensure_fit_m_length, ensure_fit_buffer_take _ _ h]

theorem ensure_fit_lengthInv (b : Buffer) (n : Nat) :
    (b.ensure_fit n).lengthInv := by
  unfold Buffer.lengthInv
  rw [ensure_fit_m_length]
  have := ensure_fit_capacity_ge b n
  omega

theorem listWrite_length (dst : List Byte) (pos : Nat) (src : List Byte)
    (h : pos + src.length ≤ dst.length) :
    (listWrite dst pos src).length = dst.length := by
  simp [listWrite]
  omega

theorem take_listWrite (dst : List Byte) (pos : Nat) (src : List Byte)
    (h : pos ≤ dst.length) :
    (listWrite dst pos src).take (pos + src.length) = dst.take pos ++ src := by
  unfold listWrite
  exact List.take_left' (by simp; omega)

theorem view_eq_take (b : Buffer) : b.view = b.m_buffer.take b.m_length := rfl

theorem length_view (b : Buffer) (h : b.lengthInv) : b.view.length = b.m_length := by
  simp [Buffer.view, Buffer.lengthInv, Buffer.capacity] at *
  omega

theorem push_m_length (b : Buffer) (src : List Byte) :
    (b.push src).m_length = b.m_length + src.length := by
  simp [Buffer.push, ensure_fit_m_length]

theorem push_capacity (b : Buffer) (src : List Byte) :
    (b.push src).capacity = (b.ensure_fit src.length).capacity := by
  simp only [Buffer.push, Buffer.capacity]
  rw [listWrite_length]
  rw [ensure_fit_m_length]
  have := ensure_fit_capacity_ge b src.length
  simp only [Buffer.capacity] at *
  omega

theorem push_lengthInv (b : Buffer) (src : List Byte) :
    (b.push src).lengthInv := by
  unfold Buffer.lengthInv
  rw [push_m_length, push_capacity]
  exact ensure_fit_capacity_ge b src.length

theorem push_view (b : Buffer) (src : List Byte) (h : b.lengthInv) :
    (b.push src).view = b.view ++ src := by
  unfold Buffer.view Buffer.push
  simp only [ensure_fit_m_length]
  rw [take_listWrite _ _ _ (by
    have := ensure_fit_capacity_ge b src.length
    simp only [Buffer.capacity] at this
    omega)]
  rw [ensure_fit_buffer_take _ _ h]

theorem pop_view (b : Buffer) (n : Nat) (h : b.lengthInv) :
    (b.pop n).view = b.view.drop n := by
  unfold Buffer.pop
  simp only [Buffer.lengthInv, Buffer.capacity] at h
  split
  · rename_i hge
    unfold Buffer.view
    simp only [List.take_zero]
    symm
    rw [List.drop_eq_nil_iff]
    simp
    omega
  · rename_i hlt
    unfold Buffer.view
    simp only []
    have hs : (List.drop n (List.take b.m_length b.m_buffer)).length = b.m_length - n := by
      simp
      omega
    rw [show b.m_length - n = 0 + (List.drop n (List.take b.m_length b.m_buffer)).length by omega]
    rw [take_listWrite _ _ _ (by simp)]
    simp

end SmallString

namespace SmallString

theorem pop_m_length (b : Buffer) (n : Nat) :
    (b.pop n).m_length = b.m_length - n := by
  unfold Buffer.pop
  split
  · rename_i h
    show 0 = b.m_length - n
    omega
  · rfl

theorem pop_capacity (b : Buffer) (n : Nat) (h : b.lengthInv) :
    (b.pop n).capacity = b.capacity := by
  unfold Buffer.pop
  simp only [Buffer.lengthInv, Buffer.capacity] at *
  split
  · rfl
  · rename_i hlt
    show (listWrite _ _ _).length = _
    rw [listWrite_length _ _ _ (by simp only [List.length_drop, List.length_take, Nat.zero_add]; omega)]

theorem pop_lengthInv (b : Buffer) (n : Nat) (h : b.lengthInv) :
    (b.pop n).lengthInv := by
  unfold Buffer.lengthInv
  rw [pop_m_length, pop_capacity _ _ h]
  simp only [Buffer.lengthInv] at h
  omega

theorem clear_m_length (b : Buffer) : b.clear.m_length = 0 := rfl

theorem clear_capacity (b : Buffer) : b.clear.capacity = b.capacity := rfl

theorem clear_m_buffer (b : Buffer) : b.clear.m_buffer = b.m_buffer := rfl

theorem mkBuffer_lengthInv (cap : Nat) : (Buffer.mkBuffer cap).lengthInv := by
  simp [Buffer.lengthInv, Buffer.mkBuffer, Buffer.capacity]

theorem mkBuffer_view (cap : Nat) : (Buffer.mkBuffer cap).view = [] := rfl

theorem drop_memory_lengthInv (b : Buffer) : (b.drop_memory).lengthInv := by
  simp [Buffer.lengthInv, Buffer.drop_memory, Buffer.capacity]

theorem moveDest_lengthInv (a : Buffer) (h : a.lengthInv) : (Buffer.moveDest a).lengthInv := h

theorem clear_lengthInv (b : Buffer) : b.clear.lengthInv := by
  simp [Buffer.lengthInv, Buffer.clear, Buffer.capacity]

theorem pushAll_spec (ss : List (List Byte)) (b : Buffer) (h : b.lengthInv) :
    (b.pushAll ss).view = b.view ++ ss.flatten ∧
      (b.pushAll ss).m_length = b.m_length + (ss.map List.length).sum ∧
      (b.pushAll ss).lengthInv := by
  induction ss generalizing b with
  | nil => simpa [Buffer.pushAll] using h
  | cons s ss ih =>
    have h1 := push_lengthInv b s
    have h2 := ih (b.push s) h1
    unfold Buffer.pushAll at *
    simp only [List.foldl_cons] at *
    refine ⟨?_, ?_, h2.2.2⟩
    · rw [h2.1, push_view _ _ h]
      simp
    · rw [h2.2.1, push_m_length]
      simp
      omega

end SmallString

namespace SmallString

theorem natDigits_zero : natDigits 0 = [] := by
  rw [natDigits]
  simp

theorem natDigits_of_ne_zero (n : Nat) (h : n ≠ 0) :
    natDigits n = natDigits (n / 10) ++ [n % 10] := by
  conv_lhs => rw [natDigits]
  rw [if_neg h]

theorem natDigits_length_pos (n : Nat) (h : n ≠ 0) : 1 ≤ (natDigits n).length := by
  rw [natDigits_of_ne_zero n h]
  simp

/-- Each digit produced by `natDigits` is a base-10 digit. -/
theorem natDigits_lt_ten : ∀ n : Nat, ∀ d ∈ natDigits n, d < 10 := by
  intro n
  induction n using Nat.strong_induction_on with
  | _ n ih =>
    intro d hd
    by_cases h0 : n = 0
    · rw [h0, natDigits_zero] at hd
      simp at hd
    · rw [natDigits_of_ne_zero n h0] at hd
      rcases List.mem_append.mp hd with h | h
      · exact ih (n / 10) (Nat.div_lt_self (Nat.pos_of_ne_zero h0) (by norm_num)) d h
      · simp at h
        omega

/-- `natDigits` never begins with a zero digit: no leading zeros. -/
theorem natDigits_head_ne_zero : ∀ n : Nat, n ≠ 0 → ∀ d, (natDigits n).head? = some d → d ≠ 0 := by
  intro n
  induction n using Nat.strong_induction_on with
  | _ n ih =>
    intro h0 d hd
    rw [natDigits_of_ne_zero n h0] at hd
    by_cases h10 : n / 10 = 0
    · rw [h10, natDigits_zero] at hd
      simp at hd
      omega
    · have hlt := Nat.div_lt_self (Nat.pos_of_ne_zero h0) (show 1 < 10 by norm_num)
      have hne2 : natDigits (n / 10) ≠ [] := by
        have := natDigits_length_pos (n / 10) h10
        intro hcon
        rw [hcon] at this
        simp at this
      obtain ⟨c, t, hct⟩ := List.exists_cons_of_ne_nil hne2
      rw [hct] at hd
      simp at hd
      have hc := ih (n / 10) hlt h10 c (by rw [hct]; rfl)
      omega

/-- `natDigits` is the base-10 positional representation of its argument. -/
theorem natDigits_foldl : ∀ n : Nat, (natDigits n).foldl (fun a d => 10 * a + d) 0 = n := by
  intro n
  induction n using Nat.strong_induction_on with
  | _ n ih =>
    by_cases h0 : n = 0
    · rw [h0, natDigits_zero]
      rfl
    · rw [natDigits_of_ne_zero n h0, List.foldl_append]
      rw [ih (n / 10) (Nat.div_lt_self (Nat.pos_of_ne_zero h0) (by norm_num))]
      simp
      omega

/-- The digit-counting loop computes the number of base-10 digits of the
absolute value (0 digits for the value 0). -/
theorem digitLoop_eq_length : ∀ m : Nat, ∀ v : Int, v.natAbs = m →
    digitLoop v = (natDigits v.natAbs).length := by
  intro m
  induction m using Nat.strong_induction_on with
  | _ m ih =>
    intro v hv
    subst hv
    rw [digitLoop]
    by_cases h0 : v = 0
    · rw [if_pos h0, h0]
      simp [natDigits_zero]
    · rw [if_neg h0]
      have habs : (v.tdiv 10).natAbs = v.natAbs / 10 := by
        rw [Int.natAbs_tdiv]
        rfl
      have hne : v.natAbs ≠ 0 := Int.natAbs_ne_zero.mpr h0
      have hlt : v.natAbs / 10 < v.natAbs := by omega
      rw [ih (v.natAbs / 10) hlt (v.tdiv 10) habs, habs]
      rw [natDigits_of_ne_zero v.natAbs hne]
      simp

theorem digitLoop_eq (v : Int) : digitLoop v = (natDigits v.natAbs).length :=
  digitLoop_eq_length v.natAbs v rfl

theorem count_digits_eq (v : Int) :
    count_digits v = (if v < 0 then 1 else 0) + (natDigits v.natAbs).length := by
  unfold count_digits
  rw [digitLoop_eq]

theorem canonicalDecimal_of_ne_zero (v : Int) (h : v ≠ 0) :
    canonicalDecimal v = (if v < 0 then [45] else []) ++ asciiDigits v.natAbs := by
  unfold canonicalDecimal asciiDigits
  rw [if_neg h]

theorem canonicalDecimal_length (v : Int) (h : v ≠ 0) :
    (canonicalDecimal v).length = count_digits v := by
  rw [canonicalDecimal_of_ne_zero v h, count_digits_eq]
  simp [asciiDigits]
  split <;> simp

end SmallString

namespace SmallString

theorem listWrite_set (buf : List Byte) (pos : Nat) (ds : List Byte) (c : Byte)
    (h1 : ds.length ≤ pos) (h2 : pos < buf.length) :
    listWrite (buf.set pos c) (pos - ds.length) ds =
      listWrite buf (pos - ds.length) (ds ++ [c]) := by
  have hset : buf.set pos c = buf.take pos ++ c :: buf.drop (pos + 1) := by
    rw [List.set_eq_take_append_cons_drop, if_pos h2]
  have hlen : (buf.take pos).length = pos := by
    simp
    omega
  unfold listWrite
  rw [hset]
  rw [List.take_append_eq_append_take, List.take_take, hlen]
  rw [List.drop_append_eq_append_drop, hlen]
  have e1 : min (pos - ds.length) pos = pos - ds.length := by omega
  have e2 : pos - ds.length - pos = 0 := by omega
  have e3 : pos - ds.length + ds.length = pos := by omega
  have e4 : pos - ds.length + (ds ++ [c]).length = pos + 1 := by
    simp
    omega
  rw [e1, e2, e3, e4]
  simp only [List.take_zero, List.append_nil, List.drop_eq_nil_of_le (Nat.le_of_eq hlen), Nat.sub_self]
  simp

theorem writeDigits_spec : ∀ n : Nat, ∀ (buf : List Byte) (pos : Nat),
    n ≠ 0 → (natDigits n).length ≤ pos + 1 → pos < buf.length →
    writeDigits buf pos n =
      (listWrite buf (pos + 1 - (natDigits n).length) (asciiDigits n),
        pos - (natDigits n).length) := by
  intro n
  induction n using Nat.strong_induction_on with
  | _ n ih =>
    intro buf pos hn hlen hpos
    rw [writeDigits, if_neg hn]
    by_cases h10 : n / 10 = 0
    · rw [writeDigits, if_pos h10]
      have hd : natDigits n = [n % 10] := by
        rw [natDigits_of_ne_zero n hn, h10, natDigits_zero]
        rfl
      rw [hd]
      unfold asciiDigits
      rw [hd]
      simp only [List.length_cons, List.length_nil, List.map_cons, List.map_nil]
      have : listWrite buf (pos + 1 - (0 + 1)) [n % 10 + 48] =
          buf.set pos (n % 10 + 48) := by
        unfold listWrite
        rw [List.set_eq_take_append_cons_drop, if_pos hpos]
        simp only [List.length_cons, List.length_nil, Nat.add_sub_cancel]
        simp
      rw [this]
    · have hlt := Nat.div_lt_self (Nat.pos_of_ne_zero hn) (show 1 < 10 by norm_num)
      have hk' : 1 ≤ (natDigits (n / 10)).length := natDigits_length_pos (n / 10) h10
      have hklen : (natDigits n).length = (natDigits (n / 10)).length + 1 := by
        rw [natDigits_of_ne_zero n hn]
        simp
      have hpos1 : 1 ≤ pos := by omega
      have hrec := ih (n / 10) hlt (buf.set pos (n % 10 + 48)) (pos - 1) h10
        (by omega) (by simp; omega)
      rw [hrec]
      have e1 : pos - 1 + 1 - (natDigits (n / 10)).length = pos - (natDigits (n / 10)).length := by
        omega
      have e2 : pos - 1 - (natDigits (n / 10)).length = pos - (natDigits n).length := by
        omega
      rw [e1, e2]
      have hasc : asciiDigits n = asciiDigits (n / 10) ++ [n % 10 + 48] := by
        unfold asciiDigits
        rw [natDigits_of_ne_zero n hn]
        simp
      have hlenasc : (asciiDigits (n / 10)).length = (natDigits (n / 10)).length := by
        unfold asciiDigits
        simp
      have hw := listWrite_set buf pos (asciiDigits (n / 10)) (n % 10 + 48)
        (by omega) hpos
      rw [hlenasc] at hw
      rw [hw, hasc]
      have e3 : pos + 1 - (natDigits n).length = pos - (natDigits (n / 10)).length := by
        omega
      rw [e3]

end SmallString

namespace SmallString

theorem set_last_take (buf : List Byte) (p : Nat) (c : Byte) (hp : p < buf.length) :
    (buf.take (p + 1)).set p c = buf.take p ++ [c] := by
  rw [List.set_eq_take_append_cons_drop, if_pos (by simp; omega)]
  rw [List.take_take]
  have hd : (buf.take (p + 1)).drop (p + 1) = [] :=
    List.drop_eq_nil_of_le (by simp)
  rw [hd]
  have : min p (p + 1) = p := by omega
  rw [this]

theorem listWrite_set_front (buf : List Byte) (p : Nat) (src : List Byte) (c : Byte)
    (hp : p < buf.length) :
    (listWrite buf (p + 1) src).set p c = listWrite buf p (c :: src) := by
  unfold listWrite
  rw [List.set_append, if_pos (by simp; omega)]
  rw [List.set_append, if_pos (by simp; omega)]
  rw [set_last_take buf p c hp]
  simp only [List.length_cons]
  have : p + 1 + src.length = p + (src.length + 1) := by omega
  rw [this]
  simp

theorem pushInt_spec (b : Buffer) (v : Int) (h : b.lengthInv) (hv : v ≠ 0) :
    (b.pushInt v).view = b.view ++ canonicalDecimal v ∧
      (b.pushInt v).m_length = b.m_length + (canonicalDecimal v).length ∧
      (b.pushInt v).lengthInv := by
  have hne : v.natAbs ≠ 0 := Int.natAbs_ne_zero.mpr hv
  have hk1 : 1 ≤ (natDigits v.natAbs).length := natDigits_length_pos _ hne
  have hnd : count_digits v = (if v < 0 then 1 else 0) + (natDigits v.natAbs).length :=
    count_digits_eq v
  have hb1len : (b.ensure_fit (count_digits v)).m_length = b.m_length :=
    ensure_fit_m_length b (count_digits v)
  have hcap : b.m_length + count_digits v ≤ (b.ensure_fit (count_digits v)).capacity :=
    ensure_fit_capacity_ge b (count_digits v)
  have hbuf : (b.ensure_fit (count_digits v)).m_buffer.length =
      (b.ensure_fit (count_digits v)).capacity := rfl
  have htake : (b.ensure_fit (count_digits v)).m_buffer.take b.m_length =
      b.m_buffer.take b.m_length := ensure_fit_buffer_take b (count_digits v) h
  have hcanlen : (canonicalDecimal v).length = count_digits v := canonicalDecimal_length v hv
  have hasclen : (asciiDigits v.natAbs).length = (natDigits v.natAbs).length := by
    unfold asciiDigits
    simp
  simp only [Buffer.pushInt]
  rw [hb1len]
  by_cases hneg : v < 0
  · rw [if_pos hneg] at hnd
    simp only [if_pos hneg]
    have hwd := writeDigits_spec v.natAbs (b.ensure_fit (count_digits v)).m_buffer
      (b.m_length + count_digits v - 1) hne (by omega) (by rw [hbuf]; omega)
    rw [hwd]
    simp only []
    have e1 : b.m_length + count_digits v - 1 + 1 - (natDigits v.natAbs).length =
        b.m_length + 1 := by omega
    have e2 : b.m_length + count_digits v - 1 - (natDigits v.natAbs).length =
        b.m_length := by omega
    rw [e1, e2]
    rw [listWrite_set_front _ _ _ _ (by rw [hbuf]; omega)]
    have hlw : (listWrite (b.ensure_fit (count_digits v)).m_buffer b.m_length
        (45 :: asciiDigits v.natAbs)).length =
        (b.ensure_fit (count_digits v)).m_buffer.length := by
      rw [listWrite_length]
      rw [hbuf]
      simp only [List.length_cons]
      omega
    have hcan : canonicalDecimal v = 45 :: asciiDigits v.natAbs := by
      rw [canonicalDecimal_of_ne_zero v hv, if_pos hneg]
      rfl
    refine ⟨?_, ?_, ?_⟩
    · simp only [Buffer.view]
      have : b.m_length + count_digits v =
          b.m_length + (45 :: asciiDigits v.natAbs).length := by
        simp only [List.length_cons]
        omega
      rw [this, take_listWrite _ _ _ (by rw [hbuf]; omega)]
      rw [htake, hcan]
    · rw [hcanlen]
    · unfold Buffer.lengthInv Buffer.capacity
      simp only []
      rw [hlw, hbuf]
      omega
  · rw [if_neg hneg] at hnd
    simp only [if_neg hneg]
    have hwd := writeDigits_spec v.natAbs (b.ensure_fit (count_digits v)).m_buffer
      (b.m_length + count_digits v - 1) hne (by omega) (by rw [hbuf]; omega)
    rw [hwd]
    simp only []
    have e1 : b.m_length + count_digits v - 1 + 1 - (natDigits v.natAbs).length =
        b.m_length := by omega
    rw [e1]
    have hlw : (listWrite (b.ensure_fit (count_digits v)).m_buffer b.m_length
        (asciiDigits v.natAbs)).length =
        (b.ensure_fit (count_digits v)).m_buffer.length := by
      rw [listWrite_length]
      rw [hbuf]
      omega
    have hcan : canonicalDecimal v = asciiDigits v.natAbs := by
      rw [canonicalDecimal_of_ne_zero v hv, if_neg hneg]
      rfl
    refine ⟨?_, ?_, ?_⟩
    · simp only [Buffer.view]
      have : b.m_length + count_digits v =
          b.m_length + (asciiDigits v.natAbs).length := by omega
      rw [this, take_listWrite _ _ _ (by rw [hbuf]; omega)]
      rw [htake, hcan]
    · rw [hcanlen]
    · unfold Buffer.lengthInv Buffer.capacity
      simp only []
      rw [hlw, hbuf]
      omega

end SmallString

namespace SmallString

theorem pushInt_zero (b : Buffer) (h : b.lengthInv) : b.pushInt 0 = b := by
  have h0 : count_digits 0 = 0 := by
    unfold count_digits
    rw [digitLoop]
    simp
  simp only [Buffer.pushInt, h0]
  rw [ensure_fit_eq_of_le b 0 (by simpa [Buffer.lengthInv] using h)]
  rw [writeDigits]
  simp

theorem findLoop_succ (hay needle : List Byte) (x fuel : Nat) :
    findLoop hay needle x (fuel + 1) =
      if matchAt hay needle x then x else findLoop hay needle (x + 1) fuel := rfl

theorem findLoop_spec (hay needle : List Byte) :
    ∀ fuel x : Nat,
      (∀ y, x ≤ y → occursAt hay needle y → y < x + fuel) →
      ((∃ y, x ≤ y ∧ occursAt hay needle y) →
          x ≤ findLoop hay needle x fuel ∧
          occursAt hay needle (findLoop hay needle x fuel) ∧
          ∀ y, x ≤ y → y < findLoop hay needle x fuel → ¬ occursAt hay needle y) ∧
      ((¬ ∃ y, x ≤ y ∧ occursAt hay needle y) → findLoop hay needle x fuel = npos) := by
  intro fuel
  induction fuel with
  | zero =>
    intro x hbound
    constructor
    · intro hex
      obtain ⟨y, hy, hocc⟩ := hex
      have := hbound y hy hocc
      omega
    · intro _
      rfl
  | succ fuel ih =>
    intro x hbound
    rw [findLoop_succ]
    by_cases hm : matchAt hay needle x = true
    · rw [if_pos hm]
      have hocc : occursAt hay needle x := of_decide_eq_true (by simpa [matchAt] using hm)
      constructor
      · intro _
        exact ⟨Nat.le_refl x, hocc, fun y hy hlt => by omega⟩
      · intro hno
        exact absurd ⟨x, Nat.le_refl x, hocc⟩ hno
    · rw [if_neg hm]
      have hnox : ¬ occursAt hay needle x := by
        intro hc
        exact hm (by simpa [matchAt] using decide_eq_true hc)
      have hrec := ih (x + 1) (by
        intro y hy hocc
        have := hbound y (by omega) hocc
        omega)
      constructor
      · intro hex
        obtain ⟨y, hy, hocc⟩ := hex
        have hy1 : x + 1 ≤ y := by
          rcases Nat.eq_or_lt_of_le hy with he | hl
          · exact absurd (he ▸ hocc) hnox
          · omega
        have h1 := hrec.1 ⟨y, hy1, hocc⟩
        refine ⟨by omega, h1.2.1, ?_⟩
        intro z hz hzlt
        by_cases hzx : z = x
        · rw [hzx]
          exact hnox
        · exact h1.2.2 z (by omega) hzlt
      · intro hno
        apply hrec.2
        intro hex
        obtain ⟨y, hy, hocc⟩ := hex
        exact hno ⟨y, by omega, hocc⟩

end SmallString

namespace SmallString

/-- C1: push of an integral value should append exactly the canonical
base-10 ASCII decimal representation, with the single byte 48 for the value
zero.  REFUTED by the code at the value 0: `count_digits(0)` is 0 (the
digit-count loop runs zero times and nothing guards the zero case), so
`push(0)` reserves no space, writes no byte and leaves the view unchanged,
while the canonical representation of 0 is the one-byte string of the digit
zero.  (For every nonzero value the mechanism is correct: `pushInt_spec`.) -/
theorem pushInt_zero_appends_nothing :
    ((Buffer.mkBuffer 8).pushInt 0).view = [] ∧
      canonicalDecimal 0 = [48] ∧
      ((Buffer.mkBuffer 8).pushInt 0).view ≠
        Buffer.view (Buffer.mkBuffer 8) ++ canonicalDecimal 0 := by
  have h1 : ((Buffer.mkBuffer 8).pushInt 0).view = [] := by
    rw [pushInt_zero (Buffer.mkBuffer 8) (mkBuffer_lengthInv 8), mkBuffer_view]
  have h2 : canonicalDecimal 0 = [48] := by decide
  refine ⟨h1, h2, ?_⟩
  rw [h1, h2, mkBuffer_view]
  simp

/-- C2: after moving buffer A into buffer B, the view of B should equal the
pre-move view of A, and the length of A should be 0.  The destination part
holds, but the source part is REFUTED: the defaulted move operations of the
current header copy `m_length` (moving a `std::size_t` does not zero it)
while the `std::vector` is emptied, so a moved-from buffer of length 2
still reports length 2. -/
theorem defaulted_move_keeps_source_length :
    (Buffer.moveDest ⟨2, [104, 105, 0, 0]⟩).view = Buffer.view ⟨2, [104, 105, 0, 0]⟩ ∧
      (Buffer.moveSrc ⟨2, [104, 105, 0, 0]⟩).length = 2 := by decide

/-- C3: for every finite sequence of byte slices appended to a freshly
constructed buffer (any initial capacity), the view after all the appends
is the concatenation of the slices and the length is the sum of their byte
lengths.  All three slice overloads of `push` forward to the
pointer-and-size `push`, which `Buffer.push` embeds. -/
theorem pushAll_concat (cap : Nat) (ss : List (List Byte)) :
    ((Buffer.mkBuffer cap).pushAll ss).view = ss.flatten ∧
      ((Buffer.mkBuffer cap).pushAll ss).length = (ss.map List.length).sum := by
  have h := pushAll_spec ss (Buffer.mkBuffer cap) (mkBuffer_lengthInv cap)
  constructor
  · rw [h.1, mkBuffer_view]
    simp
  · rw [Buffer.length, h.2.1]
    simp [Buffer.mkBuffer]

/-- C4: for a buffer with content C of length L, `pop(n)` with `n ≤ L`
leaves the view equal to C with its first n bytes removed, and `pop(n)`
with `n > L` leaves the view empty; the operation is total (the
out-of-range case is silently clamped, never an error). -/
theorem pop_removes_front (b : Buffer) (n : Nat) (h : b.lengthInv) :
    (n ≤ b.length → (b.pop n).view = b.view.drop n) ∧
      (n > b.length → (b.pop n).view = []) := by
  constructor
  · intro _
    exact pop_view b n h
  · intro hgt
    rw [pop_view b n h]
    apply List.drop_eq_nil_of_le
    rw [length_view b h]
    simp only [Buffer.length] at hgt
    omega

/-- Witness for C4 at a concrete buffer holding two bytes. -/
theorem pop_removes_front_witness :
    Buffer.lengthInv ⟨2, [49, 50, 0]⟩ ∧
      (Buffer.pop ⟨2, [49, 50, 0]⟩ 1).view = (Buffer.view ⟨2, [49, 50, 0]⟩).drop 1 ∧
      (Buffer.pop ⟨2, [49, 50, 0]⟩ 3).view = [] :=
  ⟨by decide,
   (pop_removes_front ⟨2, [49, 50, 0]⟩ 1 (by decide)).1 (by decide),
   (pop_removes_front ⟨2, [49, 50, 0]⟩ 3 (by decide)).2 (by decide)⟩

/-- C5: `clear()` sets the length to 0 and leaves the capacity and the
stored bytes untouched, and an append of `k` bytes after `clear()` causes
no growth of the storage when `k` is at most the prior capacity (the
`ensure_fit` inside the push is a no-op and the capacity is unchanged). -/
theorem clear_is_logical (b : Buffer) (s : List Byte) (hk : s.length ≤ b.capacity) :
    b.clear.length = 0 ∧
      b.clear.capacity = b.capacity ∧
      b.clear.m_buffer = b.m_buffer ∧
      b.clear.ensure_fit s.length = b.clear ∧
      (b.clear.push s).capacity = b.capacity := by
  refine ⟨rfl, rfl, rfl, ?_, ?_⟩
  · exact ensure_fit_eq_of_le b.clear s.length (by simpa [Buffer.clear, Buffer.capacity] using hk)
  · rw [push_capacity, ensure_fit_eq_of_le b.clear s.length
      (by simpa [Buffer.clear, Buffer.capacity] using hk)]
    rfl

/-- Witness for C5 at a concrete buffer and a two-byte append. -/
theorem clear_is_logical_witness :
    [55, 56].length ≤ Buffer.capacity ⟨2, [49, 50, 0]⟩ ∧
      (Buffer.clear ⟨2, [49, 50, 0]⟩).length = 0 ∧
      (Buffer.clear ⟨2, [49, 50, 0]⟩).capacity = Buffer.capacity ⟨2, [49, 50, 0]⟩ ∧
      ((Buffer.clear ⟨2, [49, 50, 0]⟩).push [55, 56]).capacity =
        Buffer.capacity ⟨2, [49, 50, 0]⟩ :=
  ⟨by decide,
   (clear_is_logical ⟨2, [49, 50, 0]⟩ [55, 56] (by decide)).1,
   (clear_is_logical ⟨2, [49, 50, 0]⟩ [55, 56] (by decide)).2.1,
   (clear_is_logical ⟨2, [49, 50, 0]⟩ [55, 56] (by decide)).2.2.2.2⟩

/-- C6: `ensure_fit(n)` guarantees room for n more bytes: afterwards
`length + n ≤ capacity`; the length is unchanged; when `length + n`
exceeds the capacity the storage grows to exactly `length + n` bytes (not
a doubling strategy); the valid bytes below the length are preserved; the
capacity never shrinks; and when `length + n ≤ capacity` the buffer is
unchanged. -/
theorem ensure_fit_guarantees (b : Buffer) (n : Nat) (h : b.lengthInv) :
    b.m_length + n ≤ (b.ensure_fit n).capacity ∧
      (b.ensure_fit n).m_length = b.m_length ∧
      (b.m_length + n > b.capacity → (b.ensure_fit n).capacity = b.m_length + n) ∧
      (b.ensure_fit n).m_buffer.take b.m_length = b.m_buffer.take b.m_length ∧
      b.capacity ≤ (b.ensure_fit n).capacity ∧
      (b.m_length + n ≤ b.capacity → b.ensure_fit n = b) := by
  exact ⟨ensure_fit_capacity_ge b n, ensure_fit_m_length b n,
    ensure_fit_capacity_of_gt b n, ensure_fit_buffer_take b n h,
    ensure_fit_capacity_mono b n, ensure_fit_eq_of_le b n⟩

/-- Witness for C6 at a concrete one-byte buffer that must grow. -/
theorem ensure_fit_guarantees_witness :
    Buffer.lengthInv ⟨1, [55]⟩ ∧
      Buffer.m_length ⟨1, [55]⟩ + 2 ≤ (Buffer.ensure_fit ⟨1, [55]⟩ 2).capacity ∧
      (Buffer.ensure_fit ⟨1, [55]⟩ 2).capacity = Buffer.m_length ⟨1, [55]⟩ + 2 :=
  ⟨by decide,
   (ensure_fit_guarantees ⟨1, [55]⟩ 2 (by decide)).1,
   (ensure_fit_guarantees ⟨1, [55]⟩ 2 (by decide)).2.2.1 (by decide)⟩

/-- C7: `find(needle, pos)` returns the byte offset of the first occurrence
of the needle within the view at or after `pos`, and the maximum-value
sentinel `npos` when there is no such occurrence; a miss is not an error
(the function is total and just returns the sentinel). -/
theorem find_first_occurrence (b : Buffer) (needle : List Byte) (pos : Nat) :
    ((∃ x, pos ≤ x ∧ occursAt b.view needle x) →
        pos ≤ b.find needle pos ∧
        occursAt b.view needle (b.find needle pos) ∧
        ∀ y, pos ≤ y → y < b.find needle pos → ¬ occursAt b.view needle y) ∧
      ((¬ ∃ x, pos ≤ x ∧ occursAt b.view needle x) → b.find needle pos = npos) := by
  unfold Buffer.find
  exact findLoop_spec b.view needle (b.view.length + 1 - pos) pos (by
    intro y hy hocc
    have h1 := hocc.1
    omega)

/-- Witness for C7: a hit at offset 3 searching from position 1, and a miss
returning `npos`. -/
theorem find_first_occurrence_witness :
    1 ≤ Buffer.find ⟨5, [97, 98, 99, 97, 98]⟩ [97, 98] 1 ∧
      occursAt (Buffer.view ⟨5, [97, 98, 99, 97, 98]⟩) [97, 98]
        (Buffer.find ⟨5, [97, 98, 99, 97, 98]⟩ [97, 98] 1) ∧
      Buffer.find ⟨5, [97, 98, 99, 97, 98]⟩ [120] 0 = npos :=
  ⟨((find_first_occurrence ⟨5, [97, 98, 99, 97, 98]⟩ [97, 98] 1).1 ⟨3, by decide⟩).1,
   ((find_first_occurrence ⟨5, [97, 98, 99, 97, 98]⟩ [97, 98] 1).1 ⟨3, by decide⟩).2.1,
   (find_first_occurrence ⟨5, [97, 98, 99, 97, 98]⟩ [120] 0).2 (by
     rintro ⟨x, -, hocc⟩
     have h1 : x + 1 ≤ 5 := by simpa [Buffer.view] using hocc.1
     have h1a : x ≤ 4 := by omega
     have h2 := hocc.2
     simp only [Buffer.view, List.take_succ_cons, List.take_zero] at h2
     interval_cases x <;> simp_all)⟩

/-- C8: the invariant `length ≤ capacity` should be preserved by every
public operation, including both sides of a move.  It is preserved by
`push`, `pop`, `clear`, `ensure_fit`, `drop_memory` and the move
destination (`push_lengthInv`, `pop_lengthInv`, `clear_lengthInv`,
`ensure_fit_lengthInv`, `drop_memory_lengthInv`, `moveDest_lengthInv`),
but REFUTED for the moved-from source: the defaulted move keeps
`m_length = 2` while the stolen vector leaves capacity 0. -/
theorem moved_from_source_breaks_invariant :
    Buffer.lengthInv ⟨2, [104, 105, 0, 0]⟩ ∧
      ¬ (Buffer.moveSrc ⟨2, [104, 105, 0, 0]⟩).lengthInv := by decide

/-- C9: appending an empty slice (`push(ptr, 0)`, or an empty
`std::string_view` or `std::string`, which forward here) is an identity
operation: the whole buffer, hence view, length and capacity, is
unchanged. -/
theorem push_empty_is_identity (b : Buffer) (h : b.lengthInv) :
    b.push [] = b ∧
      (b.push []).view = b.view ∧
      (b.push []).length = b.length ∧
      (b.push []).capacity = b.capacity := by
  have he : b.push [] = b := by
    unfold Buffer.push
    simp only [List.length_nil]
    rw [ensure_fit_eq_of_le b 0 (by simpa [Buffer.lengthInv] using h)]
    unfold listWrite
    simp
  exact ⟨he, by rw [he], by rw [he], by rw [he]⟩

/-- Witness for C9 at a concrete one-byte buffer. -/
theorem push_empty_is_identity_witness :
    Buffer.lengthInv ⟨1, [53, 0]⟩ ∧ Buffer.push ⟨1, [53, 0]⟩ [] = ⟨1, [53, 0]⟩ :=
  ⟨by decide, (push_empty_is_identity ⟨1, [53, 0]⟩ (by decide)).1⟩

/-- C10: the array-reference overload appends exactly the first N - 1 bytes
of a char array of static size N (dropping only the final byte, the NUL of
a string literal) with no scanning for a terminator: the statement holds
for every byte array, in particular arrays with embedded NUL bytes, which
are appended in full. -/
theorem pushLiteral_takes_all_but_last (b : Buffer) (arr : List Byte) (h : b.lengthInv) :
    (b.pushLiteral arr).view = b.view ++ arr.dropLast ∧
      (b.pushLiteral arr).length = b.length + (arr.length - 1) := by
  unfold Buffer.pushLiteral
  constructor
  · rw [push_view _ _ h, List.dropLast_eq_take]
  · rw [Buffer.length, Buffer.length, push_m_length]
    simp

/-- Witness for C10 with an embedded NUL byte in the array. -/
theorem pushLiteral_takes_all_but_last_witness :
    Buffer.lengthInv (Buffer.mkBuffer 4) ∧
      (Buffer.pushLiteral (Buffer.mkBuffer 4) [104, 0, 105, 0]).view =
        Buffer.view (Buffer.mkBuffer 4) ++ [104, 0, 105, 0].dropLast :=
  ⟨by decide, (pushLiteral_takes_all_but_last (Buffer.mkBuffer 4) [104, 0, 105, 0] (by decide)).1⟩

end SmallString
